import Mathlib

/-!
Verification of the record-extraction core of src/scraper.py.

The markup-to-tree parsing is an external collaborator (BeautifulSoup); we
model its output as a rose tree of elements and text nodes, and embed the
tree-query operations the code uses: find_all (preorder, recursive over the
whole subtree), and get_text with a separator and strip=True (each descendant
string is trimmed, empty results are dropped, the rest joined by the
separator).  Python dicts are embedded as association lists with
insertion-order semantics: assigning to an existing key keeps its position
and overwrites the value; a new key is appended.
-/

namespace Scraper

mutual

/-- A parsed markup tree node: either a text node or an element with a tag
and a sequence of children. -/
inductive Node where
  | text : String → Node
  | elem : String → Forest → Node

/-- A sequence of sibling nodes.  A separate mutual inductive (rather than
List Node) so that the tree traversals below are structurally recursive and
evaluate inside the kernel. -/
inductive Forest where
  | nil : Forest
  | cons : Node → Forest → Forest

end

/-- Builds a Forest from a list of nodes; concrete documents are written
with it. -/
def ofList : List Node → Forest
  | [] => Forest.nil
  | n :: rest => Forest.cons n (ofList rest)

/-- The children of a node (a text node has none). -/
def nodeChildren : Node → Forest
  | Node.text _ => Forest.nil
  | Node.elem _ cs => cs

mutual

/-- The elements with the given tag among a node and its descendants, in
document (preorder) order. -/
def findTagNode (tag : String) : Node → List Node
  | Node.text _ => []
  | Node.elem t cs => (if t = tag then [Node.elem t cs] else []) ++ findAllTag tag cs

/-- All elements with the given tag among the forest and its descendants, in
document (preorder) order.  Models BeautifulSoup find_all(tag) applied to a
sequence of top-level nodes; for an element e, find_all searches
nodeChildren e. -/
def findAllTag (tag : String) : Forest → List Node
  | Forest.nil => []
  | Forest.cons n rest => findTagNode tag n ++ findAllTag tag rest

end

mutual

/-- The descendant text-node strings of one node, in document order. -/
def nodeStrings : Node → List String
  | Node.text s => [s]
  | Node.elem _ cs => allStrings cs

/-- All descendant text-node strings of a forest, in document order.
Models the string stream underlying BeautifulSoup get_text. -/
def allStrings : Forest → List String
  | Forest.nil => []
  | Forest.cons n rest => nodeStrings n ++ allStrings rest

end

/-- Python str.strip(): remove leading and trailing whitespace.  Defined
structurally over the character list so that it evaluates inside the
kernel. -/
def strTrim (s : String) : String :=
  ⟨((s.data.dropWhile Char.isWhitespace).reverse.dropWhile Char.isWhitespace).reverse⟩

/-- Python sep.join(l), defined structurally. -/
def joinSep (sep : String) : List String → String
  | [] => ""
  | s :: rest => rest.foldl (fun acc t => acc ++ sep ++ t) s

/-- Models get_text(sep, strip=True) over a forest: strip every descendant
string, drop the ones that become empty, join the rest with sep. -/
def getTextStrip (sep : String) (ns : Forest) : String :=
  joinSep sep (((allStrings ns).map strTrim).filter (fun s => s ≠ ""))

/-- Models e.get_text(sep, strip=True) for an element e. -/
def elemTextStrip (sep : String) (n : Node) : String :=
  getTextStrip sep (nodeChildren n)

/-- Python dict assignment d[k] = v on an insertion-ordered dict: if k is
present, its value is overwritten in place; otherwise the pair is appended. -/
def dictInsert (d : List (String × String)) (k v : String) : List (String × String) :=
  if k ∈ d.map Prod.fst then
    d.map (fun p => if p.1 = k then (k, v) else p)
  else
    d ++ [(k, v)]

/-- A Python dict built from a sequence of key-value pairs (as a dict
comprehension does), with later pairs overwriting earlier ones. -/
def dictOfPairs (ps : List (String × String)) : List (String × String) :=
  ps.foldl (fun d p => dictInsert d p.1 p.2) []

/-- The record built for one table row, from the table header texts and the
row cell texts: header keys when the header is non-empty and matches the
cell count, positional col_i keys otherwise.  Mirrors the two dict
comprehensions in parse_html. -/
def rowRecord (headers texts : List String) : List (String × String) :=
  if headers ≠ [] ∧ headers.length = texts.length then
    dictOfPairs (headers.zip texts)
  else
    dictOfPairs ((List.range texts.length).map (fun i => ("col_" ++ toString i, texts.getD i "")))

/-- The table branch of parse_html: header texts from every th in the table
subtree, then a loop over every tr in the table subtree, skipping rows with
no td cells and appending the row record otherwise. -/
def tableRecords (t : Node) : List (List (String × String)) :=
  let headers := (findAllTag "th" (nodeChildren t)).map (elemTextStrip "")
  (findAllTag "tr" (nodeChildren t)).foldl
    (fun results tr =>
      let cells := findAllTag "td" (nodeChildren tr)
      if cells.isEmpty then results
      else results ++ [rowRecord headers (cells.map (elemTextStrip ""))])
    []

/-- Embedding of parse_html from src/scraper.py, taking the already-parsed
document tree (a list of top-level nodes).  soup.find returns the first
match in document order; a found table is always truthy (bs4 Tag.__bool__
is constantly True), so the table branch runs whenever a table exists.  The
li branch loops over all li elements, skipping those whose space-joined
stripped text is empty.  The p branch first filters p elements by non-empty
stripped text (default separator, i.e. plain concatenation of trimmed
fragments) and then emits one record per remaining text. -/
def parse_html (doc : Forest) : List (List (String × String)) :=
  match (findAllTag "table" doc).head? with
  | some t => tableRecords t
  | none =>
    let lis := findAllTag "li" doc
    if lis.isEmpty then
      let ps := ((findAllTag "p" doc).filter (fun q => elemTextStrip "" q ≠ "")).map
        (elemTextStrip "")
      ps.foldl (fun results s => results ++ [[("text", s)]]) []
    else
      lis.foldl
        (fun results li =>
          let s := elemTextStrip " " li
          if s ≠ "" then results ++ [[("text", s)]] else results)
        []

/-- The common list-or-paragraph extraction shape: keep the entries with
non-empty text under the given separator, and emit one single-field record
per kept entry. -/
def extractEntries (sep : String) (es : List Node) : List (List (String × String)) :=
  (es.filter (fun e => elemTextStrip sep e ≠ "")).map (fun e => [("text", elemTextStrip sep e)])

/-- Modelled from the words of the specification, section 4.3: the
ParagraphExtractor is claimed to run the identical algorithm to
ListExtractor, i.e. to join descendant text with single spaces; this
definition is the spec-side algorithm, to be compared against the p branch
of parse_html. -/
def specParagraphRecords (doc : Forest) : List (List (String × String)) :=
  extractEntries " " (findAllTag "p" doc)

/-- The keys of a record, in stored order. -/
def recKeys (d : List (String × String)) : List String :=
  d.map Prod.fst

/-- Lookup of the value stored under a key in a record (first match). -/
def recLookup (q : String) : List (String × String) → Option String
  | [] => none
  | p :: rest => if p.1 = q then some p.2 else recLookup q rest

/-- The value of the last pair with the given key in a raw pair sequence,
if any; later pairs take precedence. -/
def lastMatch (q : String) : List (String × String) → Option String
  | [] => none
  | p :: rest =>
    match lastMatch q rest with
    | some v => some v
    | none => if p.1 = q then some p.2 else none

/-- A document with an empty table and a non-empty list entry, exercising
the short-circuit priority. -/
def docTableAndList : Forest :=
  ofList [Node.elem "table" (ofList []), Node.elem "li" (ofList [Node.text "A"])]

/-- A paragraph with two text fragments split by an inline element. -/
def docPara : Forest :=
  ofList [Node.elem "p" (ofList [Node.text "a", Node.elem "b" (ofList [Node.text "b"])])]

/-- The children of the outer table of docNestedTable: a header row, a data
row, a nested table with its own header cell and one-cell row, and a final
data row. -/
def nestedTableChildren (x y z u v : String) : Forest :=
  ofList
    [Node.elem "tr" (ofList [Node.elem "th" (ofList [Node.text "A"])]),
     Node.elem "tr" (ofList
       [Node.elem "td" (ofList [Node.text x]), Node.elem "td" (ofList [Node.text y])]),
     Node.elem "table" (ofList
       [Node.elem "tr" (ofList
         [Node.elem "th" (ofList [Node.text "B"]), Node.elem "td" (ofList [Node.text z])])]),
     Node.elem "tr" (ofList
       [Node.elem "td" (ofList [Node.text u]), Node.elem "td" (ofList [Node.text v])])]

/-- A document whose first table contains a nested table contributing its
own header cell and row. -/
def docNestedTable (x y z u v : String) : Forest :=
  ofList [Node.elem "table" (nestedTableChildren x y z u v)]

/-- A document with a list item nested inside another list item. -/
def docNestedList (a b : String) : Forest :=
  ofList [Node.elem "ul" (ofList
    [Node.elem "li" (ofList
      [Node.text a, Node.elem "ul" (ofList [Node.elem "li" (ofList [Node.text b])])])])]

theorem findAllTag_ofList_append (tag : String) (l1 l2 : List Node) :
    findAllTag tag (ofList (l1 ++ l2))
      = findAllTag tag (ofList l1) ++ findAllTag tag (ofList l2) := by
  induction l1 with
  | nil => simp [ofList, findAllTag]
  | cons n rest ih => simp [ofList, findAllTag, ih]

theorem getTextStrip_single (sep s : String) :
    getTextStrip sep (ofList [Node.text s]) = strTrim s := by
  by_cases h : strTrim s = ""
  · simp [getTextStrip, allStrings, nodeStrings, ofList, h, joinSep]
  · simp [getTextStrip, allStrings, nodeStrings, ofList, h, joinSep]

theorem elemTextStrip_single (sep tag s : String) :
    elemTextStrip sep (Node.elem tag (ofList [Node.text s])) = strTrim s :=
  getTextStrip_single sep s

theorem foldl_append_if {α β : Type} (p : α → Prop) [DecidablePred p] (g : α → β) :
    ∀ (l : List α) (acc : List β),
      l.foldl (fun r x => if p x then r ++ [g x] else r) acc
        = acc ++ (l.filter (fun x => decide (p x))).map g := by
  intro l
  induction l with
  | nil => intro acc; simp
  | cons a l ih =>
    intro acc
    by_cases h : p a <;> simp [h, ih]

theorem foldl_skip_if {α β : Type} (c : α → Bool) (g : α → β) :
    ∀ (l : List α) (acc : List β),
      l.foldl (fun r x => if c x then r else r ++ [g x]) acc
        = acc ++ (l.filter (fun x => !c x)).map g := by
  intro l
  induction l with
  | nil => intro acc; simp
  | cons a l ih =>
    intro acc
    by_cases h : c a = true <;> simp [h, ih]

theorem foldl_append_all {α β : Type} (g : α → β) :
    ∀ (l : List α) (acc : List β),
      l.foldl (fun r x => r ++ [g x]) acc = acc ++ l.map g := by
  intro l
  induction l with
  | nil => intro acc; simp
  | cons a l ih => intro acc; simp [ih]

theorem tableRecords_eq_filter_map (t : Node) :
    tableRecords t
      = ((findAllTag "tr" (nodeChildren t)).filter
            (fun tr => !(findAllTag "td" (nodeChildren tr)).isEmpty)).map
          (fun tr =>
            rowRecord ((findAllTag "th" (nodeChildren t)).map (elemTextStrip ""))
              ((findAllTag "td" (nodeChildren tr)).map (elemTextStrip ""))) := by
  unfold tableRecords
  exact foldl_skip_if _ _ _ []

theorem parse_html_of_table (doc : Forest) (t : Node)
    (h : (findAllTag "table" doc).head? = some t) :
    parse_html doc = tableRecords t := by
  unfold parse_html
  rw [h]

theorem parse_html_of_list (doc : Forest)
    (h1 : findAllTag "table" doc = []) (h2 : findAllTag "li" doc ≠ []) :
    parse_html doc = extractEntries " " (findAllTag "li" doc) := by
  unfold parse_html
  rw [h1]
  have he : (findAllTag "li" doc).isEmpty = false := by
    cases hl : findAllTag "li" doc with
    | nil => exact absurd hl h2
    | cons a l => rfl
  simp only [List.head?_nil, he, Bool.false_eq_true, if_false]
  rw [foldl_append_if (fun li => elemTextStrip " " li ≠ "")
    (fun li => [("text", elemTextStrip " " li)]) (findAllTag "li" doc) []]
  simp [extractEntries]

theorem recKeys_dictInsert (d : List (String × String)) (k v : String) :
    recKeys (dictInsert d k v)
      = if k ∈ recKeys d then recKeys d else recKeys d ++ [k] := by
  unfold dictInsert recKeys
  by_cases h : k ∈ d.map Prod.fst
  · rw [if_pos h, if_pos h, List.map_map]
    apply List.map_congr_left
    intro p _
    by_cases hp : p.1 = k
    · simp [hp]
    · simp [hp]
  · rw [if_neg h, if_neg h]
    simp

theorem length_dictInsert (d : List (String × String)) (k v : String) :
    (dictInsert d k v).length
      = if k ∈ recKeys d then d.length else d.length + 1 := by
  unfold dictInsert recKeys
  by_cases h : k ∈ d.map Prod.fst
  · rw [if_pos h, if_pos h, List.length_map]
  · rw [if_neg h, if_neg h]
    simp

theorem recLookup_not_mem (q : String) :
    ∀ d : List (String × String), q ∉ recKeys d → recLookup q d = none := by
  intro d
  induction d with
  | nil => intro _; rfl
  | cons p rest ih =>
    intro h
    have h1 : ¬p.1 = q := by
      intro he
      exact h (by simp [recKeys, he])
    have h2 : q ∉ recKeys rest := by
      intro hm
      exact h (by simp [recKeys] at hm ⊢; exact Or.inr hm)
    simp [recLookup, h1, ih h2]

theorem recLookup_append (q : String) (d e : List (String × String)) :
    recLookup q (d ++ e)
      = match recLookup q d with
        | some v => some v
        | none => recLookup q e := by
  induction d with
  | nil => simp [recLookup]
  | cons p rest ih =>
    by_cases h : p.1 = q
    · simp [recLookup, h]
    · simp [recLookup, h, ih]

theorem recLookup_map_overwrite (q k v : String) :
    ∀ d : List (String × String),
      recLookup q (d.map (fun p => if p.1 = k then (k, v) else p))
        = if k = q ∧ k ∈ recKeys d then some v else recLookup q d := by
  intro d
  induction d with
  | nil => simp [recLookup, recKeys]
  | cons p rest ih =>
    rw [List.map_cons]
    by_cases hpk : p.1 = k
    · rw [if_pos hpk]
      by_cases hkq : k = q
      · have hmem : k = q ∧ k ∈ recKeys (p :: rest) := ⟨hkq, by simp [recKeys, hpk]⟩
        rw [if_pos hmem]
        simp [recLookup, hkq]
      · have hpq : ¬p.1 = q := by rw [hpk]; exact hkq
        rw [if_neg (fun hc : k = q ∧ _ => hkq hc.1)]
        show (if (k, v).1 = q then some (k, v).2
          else recLookup q (rest.map (fun p => if p.1 = k then (k, v) else p)))
          = recLookup q (p :: rest)
        rw [if_neg (hkq : ¬(k, v).1 = q), ih, if_neg (fun hc : k = q ∧ _ => hkq hc.1)]
        show recLookup q rest = if p.1 = q then some p.2 else recLookup q rest
        rw [if_neg hpq]
    · rw [if_neg hpk]
      by_cases hpq : p.1 = q
      · have hcond : ¬(k = q ∧ k ∈ recKeys (p :: rest)) := by
          rintro ⟨hc1, _⟩
          exact hpk (by rw [hpq, hc1])
        rw [if_neg hcond]
        show (if p.1 = q then some p.2
          else recLookup q (rest.map (fun p => if p.1 = k then (k, v) else p)))
          = recLookup q (p :: rest)
        rw [if_pos hpq]
        show some p.2 = if p.1 = q then some p.2 else recLookup q rest
        rw [if_pos hpq]
      · have hiff : (k = q ∧ k ∈ recKeys (p :: rest)) ↔ (k = q ∧ k ∈ recKeys rest) := by
          constructor
          · rintro ⟨h1, h2⟩
            refine ⟨h1, ?_⟩
            rcases (by simpa [recKeys] using h2 : k = p.1 ∨ k ∈ recKeys rest) with h2 | h2
            · exact absurd h2.symm hpk
            · exact h2
          · rintro ⟨h1, h2⟩
            exact ⟨h1, by simp [recKeys] at h2 ⊢; exact Or.inr h2⟩
        show (if p.1 = q then some p.2
          else recLookup q (rest.map (fun p => if p.1 = k then (k, v) else p)))
          = if k = q ∧ k ∈ recKeys (p :: rest) then some v else recLookup q (p :: rest)
        rw [if_neg hpq, ih]
        show _ = if k = q ∧ k ∈ recKeys (p :: rest) then some v
          else if p.1 = q then some p.2 else recLookup q rest
        by_cases hh : k = q ∧ k ∈ recKeys rest
        · rw [if_pos hh, if_pos (hiff.mpr hh)]
        · rw [if_neg hh, if_neg (fun hc => hh (hiff.mp hc)), if_neg hpq]

theorem recLookup_dictInsert (d : List (String × String)) (k v q : String) :
    recLookup q (dictInsert d k v)
      = if k = q then some v else recLookup q d := by
  unfold dictInsert
  by_cases hm : k ∈ recKeys d
  · rw [if_pos (by simpa [recKeys] using hm)]
    rw [recLookup_map_overwrite]
    by_cases hkq : k = q
    · rw [if_pos ⟨hkq, hm⟩, if_pos hkq]
    · rw [if_neg (fun hc => hkq hc.1), if_neg hkq]
  · rw [if_neg (by simpa [recKeys] using hm)]
    rw [recLookup_append]
    by_cases hkq : k = q
    · have : recLookup q d = none := recLookup_not_mem q d (by rw [← hkq]; exact hm)
      simp [this, recLookup, hkq]
    · by_cases hd : recLookup q d = none
      · simp [hd, recLookup, hkq]
      · rcases Option.ne_none_iff_exists.mp hd with ⟨w, hw⟩
        simp [← hw, hkq]

theorem recLookup_dictOfPairs_aux (q : String) :
    ∀ (ps d : List (String × String)),
      recLookup q (ps.foldl (fun d p => dictInsert d p.1 p.2) d)
        = match lastMatch q ps with
          | some v => some v
          | none => recLookup q d := by
  intro ps
  induction ps with
  | nil => intro d; simp [lastMatch]
  | cons p rest ih =>
    intro d
    rw [List.foldl_cons, ih (dictInsert d p.1 p.2)]
    rw [recLookup_dictInsert]
    cases hrest : lastMatch q rest with
    | some v => simp [lastMatch, hrest]
    | none =>
      by_cases hpq : p.1 = q
      · simp [lastMatch, hrest, hpq]
      · simp [lastMatch, hrest, hpq]

theorem recLookup_dictOfPairs (q : String) (ps : List (String × String)) :
    recLookup q (dictOfPairs ps) = lastMatch q ps := by
  unfold dictOfPairs
  rw [recLookup_dictOfPairs_aux]
  cases h : lastMatch q ps with
  | some v => rfl
  | none => rfl

theorem lastMatch_eq_find_rev (q : String) :
    ∀ ps : List (String × String),
      lastMatch q ps = (ps.reverse.find? (fun p => p.1 == q)).map Prod.snd := by
  intro ps
  induction ps with
  | nil => rfl
  | cons p rest ih =>
    rw [List.reverse_cons, List.find?_append]
    cases hf : rest.reverse.find? (fun p => p.1 == q) with
    | some w =>
      have hl : lastMatch q rest = some w.2 := by rw [ih, hf]; rfl
      simp [lastMatch, hl, Option.or]
    | none =>
      have hl : lastMatch q rest = none := by rw [ih, hf]; rfl
      by_cases hpq : p.1 = q
      · rw [List.find?_cons_of_pos _ (by simp [hpq])]
        simp [lastMatch, hl, Option.or, hpq]
      · rw [List.find?_cons_of_neg _ (by simp [hpq])]
        simp [lastMatch, hl, Option.or, hpq]

theorem recKeys_append (d e : List (String × String)) :
    recKeys (d ++ e) = recKeys d ++ recKeys e := by
  simp [recKeys]

theorem dictOfPairs_append_aux (ps : List (String × String)) :
    ∀ d : List (String × String), (recKeys (d ++ ps)).Nodup →
      ps.foldl (fun d p => dictInsert d p.1 p.2) d = d ++ ps := by
  induction ps with
  | nil => intro d _; simp
  | cons p rest ih =>
    intro d h
    have hnotin : p.1 ∉ recKeys d := by
      intro hm
      rw [recKeys_append, List.nodup_append] at h
      exact h.2.2 hm (by simp [recKeys])
    rw [List.foldl_cons]
    have hins : dictInsert d p.1 p.2 = d ++ [p] := by
      unfold dictInsert
      rw [if_neg (by simpa [recKeys] using hnotin)]
    rw [hins, ih (d ++ [p]) (by simpa using h), List.append_assoc]
    rfl

theorem dictOfPairs_eq_self (ps : List (String × String))
    (h : (ps.map Prod.fst).Nodup) : dictOfPairs ps = ps := by
  unfold dictOfPairs
  have := dictOfPairs_append_aux ps [] (by simpa [recKeys] using h)
  simpa using this

theorem digitChar_inj_lt : ∀ a < 10, ∀ b < 10, Nat.digitChar a = Nat.digitChar b → a = b := by
  decide

theorem map_digitChar_inj :
    ∀ l1 l2 : List Nat, (∀ d ∈ l1, d < 10) → (∀ d ∈ l2, d < 10) →
      l1.map Nat.digitChar = l2.map Nat.digitChar → l1 = l2 := by
  intro l1
  induction l1 with
  | nil =>
    intro l2 _ _ h
    cases l2 with
    | nil => rfl
    | cons b m => simp at h
  | cons a l ih =>
    intro l2 h1 h2 h
    cases l2 with
    | nil => simp at h
    | cons b m =>
      simp only [List.map_cons, List.cons.injEq] at h
      have ha := h1 a (List.mem_cons_self a l)
      have hb := h2 b (List.mem_cons_self b m)
      have hab := digitChar_inj_lt a ha b hb h.1
      have hlm := ih m (fun d hd => h1 d (List.mem_cons_of_mem a hd))
        (fun d hd => h2 d (List.mem_cons_of_mem b hd)) h.2
      rw [hab, hlm]

theorem toDigitsCore_eq_digits :
    ∀ n : Nat, 0 < n → ∀ (fuel : Nat) (acc : List Char), n ≤ fuel →
      Nat.toDigitsCore 10 fuel n acc
        = ((Nat.digits 10 n).map Nat.digitChar).reverse ++ acc := by
  intro n
  induction n using Nat.strong_induction_on with
  | _ n ih =>
    intro hn fuel acc hfuel
    match fuel with
    | 0 => omega
    | fuel + 1 =>
      show (if n / 10 = 0 then Nat.digitChar (n % 10) :: acc
        else Nat.toDigitsCore 10 fuel (n / 10) (Nat.digitChar (n % 10) :: acc)) = _
      by_cases hdiv : n / 10 = 0
      · rw [if_pos hdiv]
        have hlt : n < 10 := by omega
        rw [Nat.digits_def' (by norm_num : (1 : Nat) < 10) hn, hdiv, Nat.digits_zero]
        simp
      · rw [if_neg hdiv]
        have h1 : n / 10 < n := Nat.div_lt_self hn (by norm_num)
        have h2 : 0 < n / 10 := Nat.pos_of_ne_zero hdiv
        have h3 : n / 10 ≤ fuel := by omega
        rw [ih (n / 10) h1 h2 fuel (Nat.digitChar (n % 10) :: acc) h3]
        rw [Nat.digits_def' (by norm_num : (1 : Nat) < 10) hn]
        simp

theorem toDigits_eq_digits (n : Nat) (hn : 0 < n) :
    Nat.toDigits 10 n = ((Nat.digits 10 n).map Nat.digitChar).reverse := by
  have := toDigitsCore_eq_digits n hn (n + 1) [] (Nat.le_succ n)
  simpa [Nat.toDigits] using this

theorem digits_pos_ne_zero_singleton (n : Nat) (hn : 0 < n)
    (h : Nat.digits 10 n = [0]) : False := by
  have h2 := Nat.ofDigits_digits 10 n
  rw [h] at h2
  simp [Nat.ofDigits] at h2
  omega

theorem toDigits_pos_ne_zero_char (n : Nat) (hn : 0 < n)
    (h : Nat.toDigits 10 n = ['0']) : False := by
  rw [toDigits_eq_digits n hn] at h
  have h1 : (Nat.digits 10 n).map Nat.digitChar = ['0'] := by
    rw [← List.reverse_reverse ((Nat.digits 10 n).map Nat.digitChar), h]
    rfl
  have h2 : Nat.digits 10 n = [0] :=
    map_digitChar_inj (Nat.digits 10 n) [0]
      (fun d hd => Nat.digits_lt_base (by norm_num) hd)
      (by intro d hd; simp at hd; omega)
      (by simpa using h1)
  exact digits_pos_ne_zero_singleton n hn h2

theorem toDigits_inj (m n : Nat) (h : Nat.toDigits 10 m = Nat.toDigits 10 n) :
    m = n := by
  rcases Nat.eq_zero_or_pos m with hm | hm
  · rcases Nat.eq_zero_or_pos n with hn | hn
    · rw [hm, hn]
    · subst hm
      exact absurd h.symm (fun hc => toDigits_pos_ne_zero_char n hn hc)
  · rcases Nat.eq_zero_or_pos n with hn | hn
    · subst hn
      exact absurd h (fun hc => toDigits_pos_ne_zero_char m hm hc)
    · rw [toDigits_eq_digits m hm, toDigits_eq_digits n hn] at h
      have h1 : (Nat.digits 10 m).map Nat.digitChar = (Nat.digits 10 n).map Nat.digitChar := by
        rw [← List.reverse_reverse ((Nat.digits 10 m).map Nat.digitChar), h,
          List.reverse_reverse]
      have h2 : Nat.digits 10 m = Nat.digits 10 n :=
        map_digitChar_inj _ _
          (fun d hd => Nat.digits_lt_base (by norm_num) hd)
          (fun d hd => Nat.digits_lt_base (by norm_num) hd) h1
      have h3 := Nat.ofDigits_digits 10 m
      rw [h2, Nat.ofDigits_digits 10 n] at h3
      exact h3.symm

theorem natRepr_inj (m n : Nat) (h : Nat.repr m = Nat.repr n) : m = n :=
  toDigits_inj m n (congrArg String.data h)

theorem colKey_injective : Function.Injective (fun i : Nat => "col_" ++ toString i) := by
  intro i j h
  have hd := congrArg String.data h
  rw [String.data_append, String.data_append] at hd
  have h2 := List.append_cancel_left hd
  exact natRepr_inj i j (congrArg String.mk h2)

theorem colKeys_nodup (k : Nat) :
    ((List.range k).map (fun i => ("col_" ++ toString i : String))).Nodup :=
  (List.nodup_range k).map colKey_injective

theorem rowRecord_header (h t : List String) (h1 : h ≠ [])
    (h2 : h.length = t.length) (h3 : h.Nodup) :
    rowRecord h t = h.zip t := by
  unfold rowRecord
  rw [if_pos ⟨h1, h2⟩]
  apply dictOfPairs_eq_self
  rw [List.map_fst_zip h t (le_of_eq h2)]
  exact h3

theorem rowRecord_positional (h t : List String)
    (hc : ¬(h ≠ [] ∧ h.length = t.length)) :
    rowRecord h t
      = (List.range t.length).map (fun i => ("col_" ++ toString i, t.getD i "")) := by
  unfold rowRecord
  rw [if_neg hc]
  apply dictOfPairs_eq_self
  rw [List.map_map]
  exact colKeys_nodup t.length

theorem recKeys_dictOfPairs_nodup :
    ∀ (ps d : List (String × String)), (recKeys d).Nodup →
      (recKeys (ps.foldl (fun d p => dictInsert d p.1 p.2) d)).Nodup := by
  intro ps
  induction ps with
  | nil => intro d h; simpa using h
  | cons p rest ih =>
    intro d h
    rw [List.foldl_cons]
    apply ih
    rw [recKeys_dictInsert]
    by_cases hm : p.1 ∈ recKeys d
    · rw [if_pos hm]; exact h
    · rw [if_neg hm, List.nodup_append]
      refine ⟨h, List.nodup_singleton _, ?_⟩
      intro y hy hy2
      exact hm (by rwa [List.mem_singleton.mp hy2] at hy)

theorem mem_recKeys_dictOfPairs :
    ∀ (ps d : List (String × String)) (q : String),
      q ∈ recKeys (ps.foldl (fun d p => dictInsert d p.1 p.2) d) →
      q ∈ recKeys d ∨ q ∈ ps.map Prod.fst := by
  intro ps
  induction ps with
  | nil => intro d q h; exact Or.inl (by simpa using h)
  | cons p rest ih =>
    intro d q h
    rw [List.foldl_cons] at h
    rcases ih (dictInsert d p.1 p.2) q h with h1 | h1
    · rw [recKeys_dictInsert] at h1
      by_cases hm : p.1 ∈ recKeys d
      · rw [if_pos hm] at h1
        exact Or.inl h1
      · rw [if_neg hm] at h1
        rcases List.mem_append.mp h1 with h2 | h2
        · exact Or.inl h2
        · refine Or.inr ?_
          rw [List.map_cons, List.mem_singleton.mp h2]
          exact List.mem_cons_self _ _
    · refine Or.inr ?_
      rw [List.map_cons]
      exact List.mem_cons_of_mem _ h1

theorem length_dictOfPairs_lt (ps : List (String × String))
    (hdup : ¬(ps.map Prod.fst).Nodup) :
    (dictOfPairs ps).length < ps.length := by
  have hlen : (dictOfPairs ps).length = (recKeys (dictOfPairs ps)).length := by
    simp [recKeys]
  have hnd : (recKeys (dictOfPairs ps)).Nodup :=
    recKeys_dictOfPairs_nodup ps [] (by simp [recKeys])
  have hsub : recKeys (dictOfPairs ps) ⊆ ps.map Prod.fst := by
    intro q hq
    rcases mem_recKeys_dictOfPairs ps [] q hq with h | h
    · simp [recKeys] at h
    · exact h
  have h1 : (recKeys (dictOfPairs ps)).length ≤ ((ps.map Prod.fst).dedup).length := by
    rw [← List.toFinset_card_of_nodup hnd, ← List.card_toFinset]
    apply Finset.card_le_card
    intro x hx
    rw [List.mem_toFinset] at hx ⊢
    exact hsub hx
  have h2 : ((ps.map Prod.fst).dedup).length < (ps.map Prod.fst).length := by
    rcases lt_or_eq_of_le (List.dedup_sublist (ps.map Prod.fst)).length_le with h | h
    · exact h
    · exact absurd (List.dedup_eq_self.mp
        ((List.dedup_sublist (ps.map Prod.fst)).eq_of_length h)) hdup
  have h3 : (ps.map Prod.fst).length = ps.length := List.length_map _ _
  omega

theorem parse_html_of_para (doc : Forest)
    (h1 : findAllTag "table" doc = []) (h2 : findAllTag "li" doc = []) :
    parse_html doc = extractEntries "" (findAllTag "p" doc) := by
  unfold parse_html
  rw [h1, h2]
  simp only [List.head?_nil, List.isEmpty_nil, if_true]
  rw [foldl_append_all (fun s => [(("text" : String), s)])]
  simp [extractEntries, List.map_map]

/-- Claim C1: parse_html applies the strategies in fixed priority order with
a short-circuit: whenever the document tree contains a table element, the
output is exactly the record set of the table strategy applied to the first
table in document order, even when that record set is empty; list entries
and paragraphs present in the same document are never consulted and results
are never combined. -/
theorem parse_html_table_wins (doc : Forest) (t : Node)
    (h : (findAllTag "table" doc).head? = some t) :
    parse_html doc = tableRecords t :=
  parse_html_of_table doc t h

theorem parse_html_table_wins_example :
    parse_html docTableAndList = [] :=
  (parse_html_table_wins docTableAndList (Node.elem "table" (ofList [])) rfl).trans rfl

/-- Claim C2: within the table strategy, a row with zero data cells
contributes no record and the others contribute one record each, in order;
with a non-empty duplicate-free header whose length matches the cell count
the record pairs header i with the text of cell i in column order, and
otherwise the record carries positional keys col_0 to col_(k-1) mapped to
the k cell texts in order. -/
theorem tableRecords_row_spec :
    (∀ t : Node,
        tableRecords t
          = ((findAllTag "tr" (nodeChildren t)).filter
                (fun tr => !(findAllTag "td" (nodeChildren tr)).isEmpty)).map
              (fun tr =>
                rowRecord ((findAllTag "th" (nodeChildren t)).map (elemTextStrip ""))
                  ((findAllTag "td" (nodeChildren tr)).map (elemTextStrip ""))))
    ∧ (∀ h t : List String, h ≠ [] → h.length = t.length →
        rowRecord h t = dictOfPairs (h.zip t))
    ∧ (∀ h t : List String, h ≠ [] → h.length = t.length → h.Nodup →
        rowRecord h t = h.zip t)
    ∧ (∀ h t : List String, ¬(h ≠ [] ∧ h.length = t.length) →
        rowRecord h t
          = (List.range t.length).map (fun i => ("col_" ++ toString i, t.getD i ""))) :=
  ⟨tableRecords_eq_filter_map,
   fun h t h1 h2 => by
     unfold rowRecord
     rw [if_pos ⟨h1, h2⟩],
   rowRecord_header, rowRecord_positional⟩

theorem tableRecords_row_spec_example :
    rowRecord ["A", "B"] ["x", "y"] = [("A", "x"), ("B", "y")]
    ∧ rowRecord ["A", "B"] ["x", "y"] = dictOfPairs [("A", "x"), ("B", "y")]
    ∧ rowRecord [] ["x"] = [("col_0", "x")] :=
  ⟨(tableRecords_row_spec.2.2.1 ["A", "B"] ["x", "y"] (by decide) rfl (by decide)).trans rfl,
   (tableRecords_row_spec.2.1 ["A", "B"] ["x", "y"] (by decide) rfl).trans rfl,
   (tableRecords_row_spec.2.2.2 [] ["x"] (by simp)).trans (by decide)⟩

/-- Claim C3, counterexample: the paragraph branch does not run the
identical algorithm to the list branch.  On a paragraph holding the text
fragments a and b the code concatenates the trimmed fragments with no
separator, yielding ab, while the space-joined algorithm of the list
branch would yield a b. -/
theorem paragraph_not_space_joined :
    parse_html docPara = [[("text", "ab")]]
    ∧ specParagraphRecords docPara = [[("text", "a b")]]
    ∧ parse_html docPara ≠ specParagraphRecords docPara :=
  ⟨by decide, by decide, by decide⟩

/-- Claim C3, amended: for every document with no table and no list entry,
the paragraph branch follows the same skip-empty, one-record-per-entry
shape as the list branch, except that each paragraph text is computed by
concatenating the trimmed descendant fragments with no separator rather
than joining them with single spaces. -/
theorem paragraph_branch_concat (doc : Forest)
    (h1 : findAllTag "table" doc = []) (h2 : findAllTag "li" doc = []) :
    parse_html doc = extractEntries "" (findAllTag "p" doc) :=
  parse_html_of_para doc h1 h2

theorem paragraph_branch_concat_example :
    parse_html (ofList [Node.elem "p" (ofList [Node.text " hi "])]) = [[("text", "hi")]] :=
  (paragraph_branch_concat (ofList [Node.elem "p" (ofList [Node.text " hi "])]) rfl rfl).trans (by decide)

/-- Claim C4: for every document with no table but at least one list entry
element, parse_html returns the list strategy result: entries are processed
in document order, entries with empty stripped text are skipped, each other
entry yields one record with the single field text, and a document whose
entries all have empty text still yields the empty record set of the list
strategy rather than falling through to paragraphs. -/
theorem list_branch_records (doc : Forest)
    (h1 : findAllTag "table" doc = []) (h2 : findAllTag "li" doc ≠ []) :
    parse_html doc = extractEntries " " (findAllTag "li" doc)
    ∧ ((∀ li ∈ findAllTag "li" doc, elemTextStrip " " li = "") →
        parse_html doc = []) := by
  refine ⟨parse_html_of_list doc h1 h2, fun hall => ?_⟩
  rw [parse_html_of_list doc h1 h2]
  have hf : (findAllTag "li" doc).filter (fun e => elemTextStrip " " e ≠ "") = [] := by
    rw [List.filter_eq_nil_iff]
    intro a ha
    simp [hall a ha]
  unfold extractEntries
  rw [hf]
  rfl

theorem list_branch_records_example :
    parse_html (ofList [Node.elem "li" (ofList []), Node.elem "li" (ofList [Node.text "X"]),
      Node.elem "p" (ofList [Node.text "Y"])]) = [[("text", "X")]] :=
  ((list_branch_records
      (ofList [Node.elem "li" (ofList []), Node.elem "li" (ofList [Node.text "X"]),
        Node.elem "p" (ofList [Node.text "Y"])])
      rfl (List.ne_nil_of_length_pos (by decide))).1).trans (by decide)

/-- Claim C5: parse_html raises no error on any input tree; in particular,
absence of every structural marker (no table, no list entry, no paragraph)
is not an error and yields the empty record sequence, returned normally.
In the embedding parse_html is a total function, so the content is the
empty-output equation. -/
theorem no_marker_empty (doc : Forest)
    (h1 : findAllTag "table" doc = []) (h2 : findAllTag "li" doc = [])
    (h3 : findAllTag "p" doc = []) :
    parse_html doc = [] := by
  rw [parse_html_of_para doc h1 h2, h3]
  rfl

theorem no_marker_empty_example :
    parse_html (ofList [Node.text "hello", Node.elem "div" (ofList [])]) = [] :=
  no_marker_empty (ofList [Node.text "hello", Node.elem "div" (ofList [])]) rfl rfl rfl

/-- Claim C6: in every branch the returned record set is the image, in
first-occurrence document order, of an order-preserving sublist of the
producing rows, entries or paragraphs; nothing is sorted and nothing is
deduplicated, as the final conjunct shows on two identical entries. -/
theorem record_order_preserved :
    (∀ (doc : Forest) (t : Node), (findAllTag "table" doc).head? = some t →
        parse_html doc
          = ((findAllTag "tr" (nodeChildren t)).filter
                (fun tr => !(findAllTag "td" (nodeChildren tr)).isEmpty)).map
              (fun tr =>
                rowRecord ((findAllTag "th" (nodeChildren t)).map (elemTextStrip ""))
                  ((findAllTag "td" (nodeChildren tr)).map (elemTextStrip "")))
          ∧ List.Sublist
              ((findAllTag "tr" (nodeChildren t)).filter
                (fun tr => !(findAllTag "td" (nodeChildren tr)).isEmpty))
              (findAllTag "tr" (nodeChildren t)))
    ∧ (∀ doc : Forest, findAllTag "table" doc = [] → findAllTag "li" doc ≠ [] →
        parse_html doc
          = ((findAllTag "li" doc).filter (fun e => elemTextStrip " " e ≠ "")).map
              (fun e => [("text", elemTextStrip " " e)])
          ∧ List.Sublist
              ((findAllTag "li" doc).filter (fun e => elemTextStrip " " e ≠ ""))
              (findAllTag "li" doc))
    ∧ (∀ doc : Forest, findAllTag "table" doc = [] → findAllTag "li" doc = [] →
        parse_html doc
          = ((findAllTag "p" doc).filter (fun e => elemTextStrip "" e ≠ "")).map
              (fun e => [("text", elemTextStrip "" e)])
          ∧ List.Sublist
              ((findAllTag "p" doc).filter (fun e => elemTextStrip "" e ≠ ""))
              (findAllTag "p" doc))
    ∧ parse_html (ofList [Node.elem "li" (ofList [Node.text "A"]),
          Node.elem "li" (ofList [Node.text "A"])])
        = [[("text", "A")], [("text", "A")]] := by
  refine ⟨?_, ?_, ?_, by decide⟩
  · intro doc t h
    exact ⟨(parse_html_of_table doc t h).trans (tableRecords_eq_filter_map t),
      List.filter_sublist _⟩
  · intro doc h1 h2
    exact ⟨parse_html_of_list doc h1 h2, List.filter_sublist _⟩
  · intro doc h1 h2
    exact ⟨parse_html_of_para doc h1 h2, List.filter_sublist _⟩

theorem record_order_preserved_example :
    parse_html (ofList [Node.elem "table" (ofList
      [Node.elem "tr" (ofList [Node.elem "td" (ofList [Node.text "x"])])])])
      = [[("col_0", "x")]] := by
  have h := (record_order_preserved.1
    (ofList [Node.elem "table" (ofList
      [Node.elem "tr" (ofList [Node.elem "td" (ofList [Node.text "x"])])])])
    (Node.elem "table" (ofList
      [Node.elem "tr" (ofList [Node.elem "td" (ofList [Node.text "x"])])])) rfl).1
  exact h.trans (by decide)

/-- Claim C7: parse_html is deterministic; on equal input trees it returns
equal record sets, with the same field order within each record and the
same record order.  In the embedding parse_html is a pure function of the
document, mirroring the absence of randomness, time or shared state in the
source. -/
theorem parse_html_deterministic (d1 d2 : Forest) (h : d1 = d2) :
    parse_html d1 = parse_html d2 :=
  congrArg parse_html h

theorem parse_html_deterministic_example :
    parse_html (ofList [Node.text "a"]) = parse_html (ofList [Node.text "a"]) :=
  parse_html_deterministic (ofList [Node.text "a"]) (ofList [Node.text "a"]) rfl

/-- Claim C8: when the header is non-empty, matches the row cell count, but
contains a repeated name, the emitted record has strictly fewer fields than
the row has cells, and every key is bound to the value of the last pair
carrying it in column order — the pairings of earlier cells with a repeated
name are lost. -/
theorem duplicate_header_collapse (h t : List String) (h1 : h ≠ [])
    (h2 : h.length = t.length) (h3 : ¬h.Nodup) :
    (rowRecord h t).length < t.length
    ∧ (∀ q : String,
        recLookup q (rowRecord h t)
          = ((h.zip t).reverse.find? (fun p => p.1 == q)).map Prod.snd) := by
  have hr : rowRecord h t = dictOfPairs (h.zip t) := by
    unfold rowRecord
    rw [if_pos ⟨h1, h2⟩]
  constructor
  · rw [hr]
    have hd : ¬((h.zip t).map Prod.fst).Nodup := by
      rw [List.map_fst_zip h t (le_of_eq h2)]
      exact h3
    have hlt := length_dictOfPairs_lt (h.zip t) hd
    have hzlen : (h.zip t).length = t.length := by
      rw [List.length_zip, h2, min_self]
    omega
  · intro q
    rw [hr, recLookup_dictOfPairs, lastMatch_eq_find_rev]

theorem duplicate_header_collapse_example :
    (rowRecord ["A", "A"] ["x", "y"]).length < 2
    ∧ recLookup "A" (rowRecord ["A", "A"] ["x", "y"]) = some "y" := by
  have h := duplicate_header_collapse ["A", "A"] ["x", "y"] (by decide) rfl (by decide)
  exact ⟨h.1, (h.2 "A").trans (by decide)⟩

theorem append_space_ne (s t : String) : s ++ " " ++ t ≠ "" := by
  intro h
  have h2 := congrArg String.length h
  rw [String.length_append, String.length_append] at h2
  have h3 : (" " : String).length = 1 := rfl
  have h4 : ("" : String).length = 0 := rfl
  rw [h3, h4] at h2
  omega

theorem findAllTag_table_skip (tag : String) (hne : ¬("table" : String) = tag)
    (ts : Forest) (post : List Node) :
    findAllTag tag (ofList (Node.elem "table" ts :: post))
      = findAllTag tag ts ++ findAllTag tag (ofList post) := by
  show ((if ("table" : String) = tag then [Node.elem "table" ts] else [])
      ++ findAllTag tag ts) ++ findAllTag tag (ofList post) = _
  rw [if_neg hne]
  simp

/-- Claim C9: the collection of header cells and of rows inside the first
table is recursive over its whole subtree, so the th and tr elements of a
nested table are merged into the outer header and row sequences in document
order; on the concrete family docNestedTable the nested header cell B joins
the outer header and the nested one-cell row produces its positional record
between the records of the outer rows. -/
theorem nested_table_recursive :
    (∀ (pre post : List Node) (ts : Forest),
        findAllTag "th" (ofList (pre ++ Node.elem "table" ts :: post))
          = findAllTag "th" (ofList pre) ++ findAllTag "th" ts
            ++ findAllTag "th" (ofList post))
    ∧ (∀ (pre post : List Node) (ts : Forest),
        findAllTag "tr" (ofList (pre ++ Node.elem "table" ts :: post))
          = findAllTag "tr" (ofList pre) ++ findAllTag "tr" ts
            ++ findAllTag "tr" (ofList post))
    ∧ (∀ x y z u v : String,
        parse_html (docNestedTable x y z u v)
          = [[("A", strTrim x), ("B", strTrim y)],
             [("col_0", strTrim z)],
             [("A", strTrim u), ("B", strTrim v)]]) := by
  refine ⟨?_, ?_, ?_⟩
  · intro pre post ts
    rw [findAllTag_ofList_append, findAllTag_table_skip "th" (by decide) ts post,
      List.append_assoc]
  · intro pre post ts
    rw [findAllTag_ofList_append, findAllTag_table_skip "tr" (by decide) ts post,
      List.append_assoc]
  · intro x y z u v
    have hstep : parse_html (docNestedTable x y z u v)
        = [[("A", elemTextStrip "" (Node.elem "td" (ofList [Node.text x]))),
            ("B", elemTextStrip "" (Node.elem "td" (ofList [Node.text y])))],
           [("col_0", elemTextStrip "" (Node.elem "td" (ofList [Node.text z])))],
           [("A", elemTextStrip "" (Node.elem "td" (ofList [Node.text u]))),
            ("B", elemTextStrip "" (Node.elem "td" (ofList [Node.text v])))]] := by
      with_unfolding_all rfl
    rw [hstep]
    simp only [elemTextStrip_single]

/-- Claim C10: when the list strategy applies, entry collection includes
nested list items, so a list item nested inside another yields its own
record while its text also appears, space-joined, inside the record of the
ancestor item; when the ancestor has no text of its own the same text
occurs in two distinct records. -/
theorem nested_list_duplication :
    (∀ a b : String, strTrim a ≠ "" → strTrim b ≠ "" →
        parse_html (docNestedList a b)
          = [[("text", strTrim a ++ " " ++ strTrim b)], [("text", strTrim b)]])
    ∧ (∀ b : String, strTrim b ≠ "" →
        parse_html (docNestedList "" b)
          = [[("text", strTrim b)], [("text", strTrim b)]]) := by
  constructor
  · intro a b ha hb
    have hlis : findAllTag "li" (docNestedList a b)
        = [Node.elem "li" (ofList
            [Node.text a, Node.elem "ul" (ofList [Node.elem "li" (ofList [Node.text b])])]),
           Node.elem "li" (ofList [Node.text b])] := rfl
    rw [parse_html_of_list (docNestedList a b) rfl
      (by rw [hlis]; exact List.cons_ne_nil _ _), hlis]
    have houter : elemTextStrip " " (Node.elem "li" (ofList
        [Node.text a, Node.elem "ul" (ofList [Node.elem "li" (ofList [Node.text b])])]))
        = strTrim a ++ " " ++ strTrim b := by
      unfold elemTextStrip getTextStrip
      have hs : allStrings (nodeChildren (Node.elem "li" (ofList
          [Node.text a, Node.elem "ul" (ofList [Node.elem "li" (ofList [Node.text b])])])))
          = [a, b] := rfl
      rw [hs]
      simp [ha, hb, joinSep]
    have hinner : elemTextStrip " " (Node.elem "li" (ofList [Node.text b])) = strTrim b :=
      elemTextStrip_single " " "li" b
    unfold extractEntries
    simp [houter, hinner, hb, append_space_ne]
  · intro b hb
    have hlis : findAllTag "li" (docNestedList "" b)
        = [Node.elem "li" (ofList
            [Node.text "", Node.elem "ul" (ofList [Node.elem "li" (ofList [Node.text b])])]),
           Node.elem "li" (ofList [Node.text b])] := rfl
    rw [parse_html_of_list (docNestedList "" b) rfl
      (by rw [hlis]; exact List.cons_ne_nil _ _), hlis]
    have houter : elemTextStrip " " (Node.elem "li" (ofList
        [Node.text "", Node.elem "ul" (ofList [Node.elem "li" (ofList [Node.text b])])]))
        = strTrim b := by
      unfold elemTextStrip getTextStrip
      have hs : allStrings (nodeChildren (Node.elem "li" (ofList
          [Node.text "", Node.elem "ul" (ofList [Node.elem "li" (ofList [Node.text b])])])))
          = ["", b] := rfl
      rw [hs]
      have h0 : strTrim "" = "" := rfl
      simp [h0, hb, joinSep]
    have hinner : elemTextStrip " " (Node.elem "li" (ofList [Node.text b])) = strTrim b :=
      elemTextStrip_single " " "li" b
    unfold extractEntries
    simp [houter, hinner, hb]

theorem nested_list_duplication_example :
    parse_html (docNestedList "x" "y") = [[("text", "x y")], [("text", "y")]]
    ∧ parse_html (docNestedList "" "y") = [[("text", "y")], [("text", "y")]] :=
  ⟨(nested_list_duplication.1 "x" "y" (by decide) (by decide)).trans (by decide),
   (nested_list_duplication.2 "y" (by decide)).trans (by decide)⟩

end Scraper
